import Mathlib

/-!
Verification of the `include_dir` directory-tree library.

The data model and the lookup, search and extraction operations of
`src/include_dir/src/dir.rs` are embedded shallowly: paths are normalized
relative path strings (data-model invariant 1 of the spec), byte buffers are
lists of naturals, and the filesystem side effects of `extract` are modelled
by an explicit operation log driven by an environment that decides which
filesystem calls fail.
-/

namespace IncludeDir

/-- Modelled from the spec: the `File` struct (its source `file.rs` is not in
`src/`) — a relative path plus an immutable byte buffer. -/
structure File where
  path : String
  contents : List Nat
deriving DecidableEq, Repr

/-- The `Dir` struct of `dir.rs`: a path plus ordered lists of child files
and child directories. -/
inductive Dir : Type where
  | mk : String → List File → List Dir → Dir
deriving Repr

/-- Field accessor, `Dir::path`. -/
def Dir.path : Dir → String
  | .mk p _ _ => p

/-- Field accessor, `Dir::files`. -/
def Dir.files : Dir → List File
  | .mk _ fs _ => fs

/-- Field accessor, `Dir::dirs`. -/
def Dir.dirs : Dir → List Dir
  | .mk _ _ ds => ds

@[simp] theorem Dir.path_mk (p : String) (fs : List File) (ds : List Dir) :
    (Dir.mk p fs ds).path = p := rfl

@[simp] theorem Dir.files_mk (p : String) (fs : List File) (ds : List Dir) :
    (Dir.mk p fs ds).files = fs := rfl

@[simp] theorem Dir.dirs_mk (p : String) (fs : List File) (ds : List Dir) :
    (Dir.mk p fs ds).dirs = ds := rfl

mutual

/-- All files of the subtree rooted at a directory (the directory's own
files, then recursively the files of its subdirectories, in stored order). -/
def subtreeFiles : Dir → List File
  | .mk _ fs ds => fs ++ subtreeFilesList ds

/-- `subtreeFiles` over a list of directories, in order. -/
def subtreeFilesList : List Dir → List File
  | [] => []
  | d :: rest => subtreeFiles d ++ subtreeFilesList rest

end

mutual

/-- All proper descendant directories of a directory, in pre-order: each
child directory is listed before its own subtree, siblings in stored order. -/
def subtreeDirs : Dir → List Dir
  | .mk _ _ ds => subtreeDirsList ds

/-- For each directory in the list: the directory itself, then its
descendants, then the following siblings. -/
def subtreeDirsList : List Dir → List Dir
  | [] => []
  | d :: rest => d :: (subtreeDirs d ++ subtreeDirsList rest)

end

mutual

/-- `Dir::get_file` of `dir.rs`: check the direct files for an exact path
match, then recurse depth-first into child directories in declaration
order. -/
def Dir.get_file (d : Dir) (p : String) : Option File :=
  match d with
  | .mk _ fs ds =>
    match fs.find? (fun f => f.path == p) with
    | some f => some f
    | none => getFileList p ds

/-- The `for dir in self.dirs` loop of `Dir::get_file`. -/
def getFileList (p : String) : List Dir → Option File
  | [] => none
  | d :: rest =>
    match d.get_file p with
    | some f => some f
    | none => getFileList p rest

end

mutual

/-- `Dir::get_dir` of `dir.rs`: for each child directory, test its path for
an exact match, then search its subtree, before moving to the next
sibling. -/
def Dir.get_dir (d : Dir) (p : String) : Option Dir :=
  match d with
  | .mk _ _ ds => getDirList p ds

/-- The `for dir in self.dirs` loop of `Dir::get_dir`. -/
def getDirList (p : String) : List Dir → Option Dir
  | [] => none
  | d :: rest =>
    if d.path == p then some d
    else
      match d.get_dir p with
      | some r => some r
      | none => getDirList p rest

end

/-- `Dir::contains` of `dir.rs`. -/
def Dir.contains (d : Dir) (p : String) : Bool :=
  (d.get_file p).isSome || (d.get_dir p).isSome

/-- Glob pattern tokens. Modelled from the spec (the matcher is the external
`glob` crate, not in `src/`): literal characters, `?`, `*`, `**` and
character classes. -/
inductive Tok : Type where
  | lit : Char → Tok
  | anyChar : Tok
  | anySeq : Tok
  | anyRecursive : Tok
  | cls : Bool → List Char → Tok
deriving DecidableEq, Repr

/-- Modelled from the spec: a pattern-compilation error (unbalanced
brackets, invalid escape). -/
structure PatternError where
  msg : String
deriving DecidableEq, Repr

/-- Scan a character-class body up to the closing bracket, returning the
class characters and the remaining input; fails when the bracket is never
closed. -/
def takeClass : List Char → Option (List Char × List Char)
  | [] => none
  | c :: rest =>
    if c = ']' then some ([], rest)
    else
      match takeClass rest with
      | none => none
      | some (cs, r) => some (c :: cs, r)

theorem takeClass_length (l : List Char) :
    ∀ cs r, takeClass l = some (cs, r) → r.length < l.length := by
  induction l with
  | nil => intro cs r h; simp [takeClass] at h
  | cons c rest ih =>
    intro cs r h
    rw [takeClass] at h
    split at h
    · cases h; simp
    · cases hrec : takeClass rest with
      | none => rw [hrec] at h; cases h
      | some pr =>
        obtain ⟨cs0, r0⟩ := pr
        rw [hrec] at h
        simp only [Option.some.injEq, Prod.mk.injEq] at h
        obtain ⟨h1, h2⟩ := h
        have hl := ih cs0 r0 hrec
        subst h2
        simp only [List.length_cons]
        omega

/-- Modelled from the spec: compile a glob pattern into tokens. `**` (with a
following separator absorbed) matches across separators, `*` within one
component, `?` exactly one non-separator character; `[...]` and `[!...]`
are character classes. A trailing backslash is an invalid escape, an
unclosed `[` an unbalanced bracket. -/
def compileGlob : List Char → Except PatternError (List Tok)
  | [] => .ok []
  | '*' :: '*' :: '/' :: rest => (compileGlob rest).map (fun ts => .anyRecursive :: ts)
  | '*' :: '*' :: rest => (compileGlob rest).map (fun ts => .anyRecursive :: ts)
  | '*' :: rest => (compileGlob rest).map (fun ts => .anySeq :: ts)
  | '?' :: rest => (compileGlob rest).map (fun ts => .anyChar :: ts)
  | ['\\'] => .error ⟨"invalid escape: trailing backslash"⟩
  | '\\' :: c :: rest => (compileGlob rest).map (fun ts => .lit c :: ts)
  | '[' :: '!' :: rest =>
    (match h : takeClass rest with
     | none => .error ⟨"unbalanced bracket"⟩
     | some (cs, r) => (compileGlob r).map (fun ts => .cls true cs :: ts))
  | '[' :: rest =>
    (match h : takeClass rest with
     | none => .error ⟨"unbalanced bracket"⟩
     | some (cs, r) => (compileGlob r).map (fun ts => .cls false cs :: ts))
  | c :: rest => (compileGlob rest).map (fun ts => .lit c :: ts)
termination_by l => l.length
decreasing_by
  all_goals simp_wf
  all_goals try simp only [List.length_cons]
  all_goals first
    | omega
    | (have hlt := takeClass_length _ _ _ h; omega)

/-- Does one character fall in a character class (`[...]`/`[!...]`)? A class
never matches the separator. -/
def clsMatches (neg : Bool) (cs : List Char) (x : Char) : Bool :=
  !(x == '/') && (if neg then !(cs.contains x) else cs.contains x)

/-- Modelled from the spec: match a token list against a path's characters.
`*` matches any run of non-separator characters, `**` any run of
characters, `?` one non-separator character. -/
def matchToks : List Tok → List Char → Bool
  | [], [] => true
  | [], _ :: _ => false
  | .lit _ :: _, [] => false
  | .lit c :: ts, x :: xs => c == x && matchToks ts xs
  | .anyChar :: _, [] => false
  | .anyChar :: ts, x :: xs => !(x == '/') && matchToks ts xs
  | .cls _ _ :: _, [] => false
  | .cls neg cs :: ts, x :: xs => clsMatches neg cs x && matchToks ts xs
  | .anySeq :: ts, [] => matchToks ts []
  | .anySeq :: ts, x :: xs =>
      matchToks ts (x :: xs) || (!(x == '/') && matchToks (.anySeq :: ts) xs)
  | .anyRecursive :: ts, [] => matchToks ts []
  | .anyRecursive :: ts, x :: xs =>
      matchToks ts (x :: xs) || matchToks (.anyRecursive :: ts) xs
termination_by ts s => (s.length, ts.length)

/-- Modelled from the spec: a compiled glob pattern (`glob::Pattern`). -/
structure Pattern where
  toks : List Tok
deriving DecidableEq, Repr

/-- `Pattern::new`: compile or report a `PatternError`. -/
def Pattern.new (glob : String) : Except PatternError Pattern :=
  (compileGlob glob.toList).map Pattern.mk

/-- `Pattern::matches_path` on the full normalized relative path string. -/
def Pattern.matchesPath (pat : Pattern) (p : String) : Bool :=
  matchToks pat.toks p.toList

/-- `DirEntry` of `globs.rs` (not in `src/`): a tagged union over a File or
a Dir. -/
inductive DirEntry : Type where
  | file : File → DirEntry
  | dir : Dir → DirEntry
deriving Repr

/-- The path of the entity an entry references. -/
def DirEntry.path : DirEntry → String
  | .file f => f.path
  | .dir d => d.path

mutual

/-- Modelled from the spec: the candidate sequence of the `Globs` iterator
(`globs.rs` is not in `src/`) — the entries drawn from a directory and every
descendant, in pre-order: the directory's files, then for each subdirectory
the subdirectory itself followed by its own entries recursively, in stored
order. -/
def walk : Dir → List DirEntry
  | .mk _ fs ds => fs.map DirEntry.file ++ walkList ds

/-- `walk` over a list of sibling directories, each directory before its
subtree. -/
def walkList : List Dir → List DirEntry
  | [] => []
  | d :: rest => DirEntry.dir d :: (walk d ++ walkList rest)

end

/-- `Dir::dir_entries` of `dir.rs`: the direct files, then the direct
subdirectories, as entries. -/
def Dir.dir_entries (d : Dir) : List DirEntry :=
  d.files.map DirEntry.file ++ d.dirs.map DirEntry.dir

/-- `Dir::find` of `dir.rs`: compile the pattern (surfacing any
`PatternError` to the caller), then yield the matching entries of the walk;
the returned list is the full sequence the lazy iterator produces. -/
def Dir.find (d : Dir) (glob : String) : Except PatternError (List DirEntry) :=
  match Pattern.new glob with
  | .error e => .error e
  | .ok pat => .ok ((walk d).filter (fun e => pat.matchesPath e.path))

/-- Split a character list at every separator. -/
def splitSlash : List Char → List (List Char)
  | [] => [[]]
  | c :: rest =>
    if c = '/' then [] :: splitSlash rest
    else
      match splitSlash rest with
      | [] => [[c]]
      | g :: gs => (c :: g) :: gs

/-- Modelled from the spec: `std::path::Path::file_name` on a normalized
relative path — the final non-empty, non-`.` component; no result when no
such component exists or the final one is `..`. -/
def fileName (s : String) : Option String :=
  match ((splitSlash s.toList).filter
      (fun c => !(c.isEmpty || c == ['.']))).getLast? with
  | none => none
  | some c => if c = ['.', '.'] then none else some (String.mk c)

/-- `Path::join` of a directory location and a base name. -/
def joinPath (t n : String) : String := t ++ "/" ++ n

/-- A filesystem call made by `Dir::extract`: `fs::create_dir_all`, or
`File::write_to` (create or truncate, write the bytes, sync). -/
inductive FsOp : Type where
  | createDirAll : String → FsOp
  | writeFile : String → List Nat → FsOp
deriving DecidableEq, Repr

/-- The outcome of an extraction step: an I/O error propagated verbatim, or
a panic from one of the two `expect` calls in `Dir::extract`. -/
inductive ExtractErr : Type where
  | io : String → ExtractErr
  | panicked : String → ExtractErr
deriving DecidableEq, Repr

/-- Modelled from the spec: the filesystem boundary — an environment that
decides which filesystem calls fail, and with what I/O error (`none` is
success). -/
def FsEnv : Type := FsOp → Option String

/-- The `for file in self.files()` loop of `Dir::extract`. -/
def extractFiles (env : FsEnv) : List File → String → List FsOp × Except ExtractErr Unit
  | [], _ => ([], .ok ())
  | f :: rest, target =>
    match fileName f.path with
    | none => ([], .error (.panicked "All files are guaranteed to have a filename"))
    | some name =>
      match env (.writeFile (joinPath target name) f.contents) with
      | some e => ([], .error (.io e))
      | none =>
        match extractFiles env rest target with
        | (ops, r) => (FsOp.writeFile (joinPath target name) f.contents :: ops, r)

mutual

/-- `Dir::extract` of `dir.rs`, over the filesystem model: create the
target directory, write each direct file to the target joined with the
file's base name, then recurse into each subdirectory under the target
joined with the subdirectory's base name. Returns the successfully
performed calls in order, together with the outcome; the first failing call
(or `expect` panic) aborts the rest. -/
def Dir.extract (env : FsEnv) (d : Dir) (target : String) :
    List FsOp × Except ExtractErr Unit :=
  match d with
  | .mk _ fs ds =>
    match env (.createDirAll target) with
    | some e => ([], .error (.io e))
    | none =>
      match extractFiles env fs target with
      | (ops, .error e) => (FsOp.createDirAll target :: ops, .error e)
      | (ops, .ok _) =>
        match extractDirs env ds target with
        | (ops2, r) => (FsOp.createDirAll target :: (ops ++ ops2), r)

/-- The `for dir in self.dirs()` loop of `Dir::extract`. -/
def extractDirs (env : FsEnv) : List Dir → String → List FsOp × Except ExtractErr Unit
  | [], _ => ([], .ok ())
  | d :: rest, target =>
    match fileName d.path with
    | none => ([], .error (.panicked "All directories are guaranteed to have a name"))
    | some name =>
      match Dir.extract env d (joinPath target name) with
      | (ops, .error e) => (ops, .error e)
      | (ops, .ok _) =>
        match extractDirs env rest target with
        | (ops2, r) => (ops ++ ops2, r)

end

mutual

/-- The full, environment-independent sequence of filesystem calls that
`extract` attempts, in order (faithful to `extract` when every path has a
base name; a path without one is planned under an empty name, a case
`extract` answers with a panic instead). -/
def planDir (d : Dir) (target : String) : List FsOp :=
  match d with
  | .mk _ fs ds =>
    FsOp.createDirAll target :: (planFiles fs target ++ planDirs ds target)

/-- `planDir`, files loop. -/
def planFiles : List File → String → List FsOp
  | [], _ => []
  | f :: rest, target =>
    FsOp.writeFile (joinPath target ((fileName f.path).getD "")) f.contents
      :: planFiles rest target

/-- `planDir`, subdirectories loop. -/
def planDirs : List Dir → String → List FsOp
  | [], _ => []
  | d :: rest, target =>
    planDir d (joinPath target ((fileName d.path).getD "")) ++ planDirs rest target

end

/-- Execute a sequence of filesystem calls until the first failure,
returning the successfully performed ones in order and the outcome. -/
def runOps (env : FsEnv) : List FsOp → List FsOp × Except ExtractErr Unit
  | [] => ([], .ok ())
  | op :: rest =>
    match env op with
    | some e => ([], .error (.io e))
    | none =>
      match runOps env rest with
      | (ops, r) => (op :: ops, r)

/-- The contents visible at a path after the performed operations (listed
in chronological order) ran against an initially empty filesystem: a later
write overwrites an earlier one at the same path. -/
def fsAfter (ops : List FsOp) (q : String) : Option (List Nat) :=
  match ops with
  | [] => none
  | op :: rest =>
    match fsAfter rest q with
    | some c => some c
    | none =>
      match op with
      | .createDirAll _ => none
      | .writeFile p c => if p = q then some c else none

/-- Every file of the subtree and every descendant directory has a base
name, so neither `expect` in `Dir::extract` can fire. -/
def goodNames (d : Dir) : Bool :=
  (subtreeFiles d).all (fun f => (fileName f.path).isSome)
    && (subtreeDirs d).all (fun s => (fileName s.path).isSome)

/-! ## Helper lemmas -/

/-- Structural induction over the nested `Dir` tree: a property holds of
every directory once it holds of `Dir.mk p fs ds` whenever it holds of
every member of `ds`. -/
theorem Dir.strongInd (P : Dir → Prop)
    (step : ∀ p fs ds, (∀ d ∈ ds, P d) → P (Dir.mk p fs ds)) :
    ∀ d, P d := by
  have key : ∀ n (d : Dir), sizeOf d ≤ n → P d := by
    intro n
    induction n with
    | zero =>
      intro d hd
      cases d with
      | mk p fs ds =>
        have hs := Dir.mk.sizeOf_spec p fs ds
        omega
    | succ n ih =>
      intro d hd
      cases d with
      | mk p fs ds =>
        apply step
        intro x hx
        apply ih
        have h1 := List.sizeOf_lt_of_mem hx
        have h2 := Dir.mk.sizeOf_spec p fs ds
        omega
  intro d
  exact key (sizeOf d) d (Nat.le_refl _)

@[simp] theorem subtreeFilesList_nil : subtreeFilesList [] = [] := rfl

@[simp] theorem subtreeFilesList_cons (d : Dir) (rest : List Dir) :
    subtreeFilesList (d :: rest) = subtreeFiles d ++ subtreeFilesList rest := rfl

@[simp] theorem subtreeDirsList_nil : subtreeDirsList [] = [] := rfl

@[simp] theorem subtreeDirsList_cons (d : Dir) (rest : List Dir) :
    subtreeDirsList (d :: rest) = d :: (subtreeDirs d ++ subtreeDirsList rest) := rfl

@[simp] theorem subtreeFiles_mk (p : String) (fs : List File) (ds : List Dir) :
    subtreeFiles (Dir.mk p fs ds) = fs ++ subtreeFilesList ds := by
  rw [subtreeFiles]

@[simp] theorem subtreeDirs_mk (p : String) (fs : List File) (ds : List Dir) :
    subtreeDirs (Dir.mk p fs ds) = subtreeDirsList ds := by
  rw [subtreeDirs]

/-- `get_file` is exactly: the first file of the subtree enumeration (own
files first, then each subdirectory's subtree in order) whose path equals
the query. -/
theorem get_file_eq_find? :
    ∀ (d : Dir) (p : String),
      d.get_file p = (subtreeFiles d).find? (fun f => f.path == p) := by
  have hlist : ∀ (p : String) (ds : List Dir),
      (∀ d ∈ ds, ∀ q, d.get_file q = (subtreeFiles d).find? (fun f => f.path == q)) →
      getFileList p ds = (subtreeFilesList ds).find? (fun f => f.path == p) := by
    intro p ds
    induction ds with
    | nil => intro _; simp [getFileList]
    | cons d rest ih =>
      intro h
      rw [getFileList, subtreeFilesList_cons, List.find?_append]
      rw [h d (List.mem_cons_self d rest) p]
      cases hfd : (subtreeFiles d).find? (fun f => f.path == p) with
      | some f => simp [Option.or]
      | none =>
        simp only [Option.or]
        exact ih (fun x hx q => h x (List.mem_cons_of_mem d hx) q)
  intro d
  induction d using Dir.strongInd with
  | step p fs ds ih =>
    intro q
    rw [Dir.get_file, subtreeFiles_mk, List.find?_append]
    cases hff : fs.find? (fun f => f.path == q) with
    | some f => simp [Option.or]
    | none =>
      simp only [Option.or]
      exact hlist q ds ih

/-- `get_dir` is exactly: the first directory of the pre-order descendant
enumeration (each child before its own subtree, siblings in order) whose
path equals the query. -/
theorem get_dir_eq_find? :
    ∀ (d : Dir) (p : String),
      d.get_dir p = (subtreeDirs d).find? (fun s => s.path == p) := by
  have hlist : ∀ (p : String) (ds : List Dir),
      (∀ d ∈ ds, ∀ q, d.get_dir q = (subtreeDirs d).find? (fun s => s.path == q)) →
      getDirList p ds = (subtreeDirsList ds).find? (fun s => s.path == p) := by
    intro p ds
    induction ds with
    | nil => intro _; simp [getDirList]
    | cons d rest ih =>
      intro h
      rw [getDirList, subtreeDirsList_cons, List.find?_cons]
      cases hdp : (d.path == p) with
      | true => simp
      | false =>
        simp only [cond_false, List.find?_append]
        rw [h d (List.mem_cons_self d rest) p]
        cases hfd : (subtreeDirs d).find? (fun s => s.path == p) with
        | some s => simp [Option.or]
        | none =>
          simp only [Option.or]
          exact ih (fun x hx q => h x (List.mem_cons_of_mem d hx) q)
  intro d
  induction d using Dir.strongInd with
  | step p fs ds ih =>
    intro q
    rw [Dir.get_dir, subtreeDirs_mk]
    exact hlist q ds ih

/-- In a list whose images under `key` are pairwise distinct, searching for
the key of a member finds that member. -/
theorem find?_key_of_nodup {α : Type} (key : α → String) :
    ∀ (l : List α), ((l.map key).Nodup) →
      ∀ f ∈ l, l.find? (fun g => key g == key f) = some f := by
  intro l
  induction l with
  | nil => intro _ f hf; cases hf
  | cons a rest ih =>
    intro hn f hf
    have hn2 : (∀ x ∈ rest, ¬key x = key a) ∧ (List.map key rest).Nodup := by
      simpa using hn
    rw [List.find?_cons]
    cases hak : (key a == key f) with
    | true =>
      cases List.mem_cons.1 hf with
      | inl h => rw [h]
      | inr h =>
        exfalso
        have hkey : key a = key f := by simpa [beq_iff_eq] using hak
        exact hn2.1 f h hkey.symm
    | false =>
      cases List.mem_cons.1 hf with
      | inl h =>
        exfalso
        rw [h] at hak
        simp at hak
      | inr h =>
        simp only [cond_false]
        exact ih hn2.2 f h

@[simp] theorem walkList_nil : walkList [] = [] := rfl

@[simp] theorem walkList_cons (d : Dir) (rest : List Dir) :
    walkList (d :: rest) = DirEntry.dir d :: (walk d ++ walkList rest) := rfl

@[simp] theorem walk_mk (p : String) (fs : List File) (ds : List Dir) :
    walk (Dir.mk p fs ds) = fs.map DirEntry.file ++ walkList ds := by
  rw [walk]

/-- A file entry occurs in the walk exactly when the file is in the
subtree. -/
theorem mem_walk_file :
    ∀ (d : Dir) (f : File), DirEntry.file f ∈ walk d ↔ f ∈ subtreeFiles d := by
  have hlist : ∀ (f : File) (ds : List Dir),
      (∀ x ∈ ds, ∀ g : File, DirEntry.file g ∈ walk x ↔ g ∈ subtreeFiles x) →
      (DirEntry.file f ∈ walkList ds ↔ f ∈ subtreeFilesList ds) := by
    intro f ds
    induction ds with
    | nil => intro _; simp
    | cons x rest ihl =>
      intro h
      simp only [walkList_cons, subtreeFilesList_cons, List.mem_cons, List.mem_append]
      rw [h x (List.mem_cons_self x rest) f, ihl (fun y hy g => h y (List.mem_cons_of_mem x hy) g)]
      simp
  intro d
  induction d using Dir.strongInd with
  | step p fs ds ih =>
    intro f
    simp only [walk_mk, subtreeFiles_mk, List.mem_append, List.mem_map]
    rw [hlist f ds (fun x hx g => ih x hx g)]
    constructor
    · rintro (⟨g, hg, he⟩ | h)
      · cases he; exact Or.inl hg
      · exact Or.inr h
    · rintro (h | h)
      · exact Or.inl ⟨f, h, rfl⟩
      · exact Or.inr h

/-- A directory entry occurs in the walk exactly when the directory is a
proper descendant. -/
theorem mem_walk_dir :
    ∀ (d : Dir) (s : Dir), DirEntry.dir s ∈ walk d ↔ s ∈ subtreeDirs d := by
  have hlist : ∀ (s : Dir) (ds : List Dir),
      (∀ x ∈ ds, ∀ t : Dir, DirEntry.dir t ∈ walk x ↔ t ∈ subtreeDirs x) →
      (DirEntry.dir s ∈ walkList ds ↔ s ∈ subtreeDirsList ds) := by
    intro s ds
    induction ds with
    | nil => intro _; simp
    | cons x rest ihl =>
      intro h
      simp only [walkList_cons, subtreeDirsList_cons, List.mem_cons, List.mem_append]
      rw [h x (List.mem_cons_self x rest) s, ihl (fun y hy t => h y (List.mem_cons_of_mem x hy) t)]
      simp
  intro d
  induction d using Dir.strongInd with
  | step p fs ds ih =>
    intro s
    simp only [walk_mk, subtreeDirs_mk, List.mem_append, List.mem_map]
    rw [hlist s ds (fun x hx t => ih x hx t)]
    constructor
    · rintro (⟨g, _, he⟩ | h)
      · cases he
      · exact h
    · intro h
      exact Or.inr h

/-- The `**/*` token sequence matches every path string. -/
theorem matchToks_recursive_all : ∀ s : List Char,
    matchToks [Tok.anyRecursive, Tok.anySeq] s = true := by
  intro s
  induction s with
  | nil => simp [matchToks]
  | cons x xs ih => simp [matchToks, ih]

/-- `find` with the `**/*` pattern succeeds and keeps the entire walk. -/
theorem find_recursive_eq_walk (d : Dir) : d.find "**/*" = .ok (walk d) := by
  have hc : Pattern.new "**/*" = .ok ⟨[Tok.anyRecursive, Tok.anySeq]⟩ := by
    simp [Pattern.new, compileGlob, Except.map]
  rw [Dir.find, hc]
  have hall : ∀ e ∈ walk d, (Pattern.mk [Tok.anyRecursive, Tok.anySeq]).matchesPath e.path := by
    intro e _
    exact matchToks_recursive_all e.path.toList
  exact congrArg Except.ok (List.filter_eq_self.2 hall)

theorem mem_subtreeFilesList {x : Dir} :
    ∀ (ds : List Dir), x ∈ ds → ∀ f ∈ subtreeFiles x, f ∈ subtreeFilesList ds := by
  intro ds
  induction ds with
  | nil => intro h; cases h
  | cons y rest ih =>
    intro hx f hf
    simp only [subtreeFilesList_cons, List.mem_append]
    cases List.mem_cons.1 hx with
    | inl h => subst h; exact Or.inl hf
    | inr h => exact Or.inr (ih h f hf)

theorem mem_subtreeDirsList {x : Dir} :
    ∀ (ds : List Dir), x ∈ ds → ∀ s ∈ subtreeDirs x, s ∈ subtreeDirsList ds := by
  intro ds
  induction ds with
  | nil => intro h; cases h
  | cons y rest ih =>
    intro hx s hs
    simp only [subtreeDirsList_cons, List.mem_cons, List.mem_append]
    cases List.mem_cons.1 hx with
    | inl h => subst h; exact Or.inr (Or.inl hs)
    | inr h => exact Or.inr (Or.inr (ih h s hs))

theorem self_mem_subtreeDirsList {x : Dir} :
    ∀ (ds : List Dir), x ∈ ds → x ∈ subtreeDirsList ds := by
  intro ds
  induction ds with
  | nil => intro h; cases h
  | cons y rest ih =>
    intro hx
    simp only [subtreeDirsList_cons, List.mem_cons, List.mem_append]
    cases List.mem_cons.1 hx with
    | inl h => exact Or.inl h
    | inr h => exact Or.inr (Or.inr (ih h))

theorem goodNames_child {p : String} {fs : List File} {ds : List Dir}
    (hg : goodNames (Dir.mk p fs ds) = true) :
    ∀ x ∈ ds, goodNames x = true := by
  intro x hx
  simp only [goodNames, Bool.and_eq_true, List.all_eq_true] at hg ⊢
  obtain ⟨h1, h2⟩ := hg
  constructor
  · intro f hf
    apply h1
    rw [subtreeFiles_mk]
    exact List.mem_append.2 (Or.inr (mem_subtreeFilesList ds hx f hf))
  · intro s hs
    apply h2
    rw [subtreeDirs_mk]
    exact mem_subtreeDirsList ds hx s hs

@[simp] theorem runOps_nil (env : FsEnv) : runOps env [] = ([], .ok ()) := rfl

theorem runOps_append (env : FsEnv) :
    ∀ l1 l2 : List FsOp,
      runOps env (l1 ++ l2) =
        (match runOps env l1 with
         | (ops, Except.error e) => (ops, Except.error e)
         | (ops, Except.ok _) => (ops ++ (runOps env (l2 : List FsOp)).1, (runOps env l2).2)) := by
  intro l1 l2
  induction l1 with
  | nil => simp
  | cons op rest ih =>
    rw [List.cons_append, runOps, runOps]
    cases henv : env op with
    | some e => rfl
    | none =>
      rw [ih]
      cases hr : runOps env rest with
      | mk ops r =>
        cases r with
        | error e => rfl
        | ok u =>
          cases hr2 : runOps env l2 with
          | mk ops2 r2 => simp

theorem extractFiles_eq_runOps (env : FsEnv) :
    ∀ (fs : List File) (target : String),
      (∀ f ∈ fs, (fileName f.path).isSome = true) →
      extractFiles env fs target = runOps env (planFiles fs target) := by
  intro fs
  induction fs with
  | nil => intro target _; rfl
  | cons f rest ih =>
    intro target h
    have hf : (fileName f.path).isSome = true := h f (List.mem_cons_self f rest)
    obtain ⟨name, hname⟩ := Option.isSome_iff_exists.1 hf
    rw [extractFiles, planFiles, hname, runOps]
    simp only [Option.getD_some]
    cases henv : env (FsOp.writeFile (joinPath target name) f.contents) with
    | some e => rfl
    | none =>
      rw [ih target (fun g hg => h g (List.mem_cons_of_mem f hg))]

theorem extract_eq_runOps :
    ∀ (d : Dir), goodNames d = true → ∀ (env : FsEnv) (target : String),
      Dir.extract env d target = runOps env (planDir d target) := by
  have hlist : ∀ (ds : List Dir),
      (∀ x ∈ ds, goodNames x = true →
        ∀ env target, Dir.extract env x target = runOps env (planDir x target)) →
      (∀ x ∈ ds, goodNames x = true) →
      (∀ x ∈ ds, (fileName (Dir.path x)).isSome = true) →
      ∀ (env : FsEnv) (target : String),
        extractDirs env ds target = runOps env (planDirs ds target) := by
    intro ds
    induction ds with
    | nil => intro _ _ _ env target; rfl
    | cons x rest ihl =>
      intro hrec hgood hname env target
      obtain ⟨name, hn⟩ := Option.isSome_iff_exists.1 (hname x (List.mem_cons_self x rest))
      rw [extractDirs, planDirs, hn]
      simp only [Option.getD_some]
      rw [hrec x (List.mem_cons_self x rest) (hgood x (List.mem_cons_self x rest)) env
        (joinPath target name)]
      rw [runOps_append]
      rw [ihl (fun y hy => hrec y (List.mem_cons_of_mem x hy))
        (fun y hy => hgood y (List.mem_cons_of_mem x hy))
        (fun y hy => hname y (List.mem_cons_of_mem x hy)) env target]
  intro d
  induction d using Dir.strongInd with
  | step p fs ds ih =>
    intro hg env target
    have hg2 := hg
    simp only [goodNames, Bool.and_eq_true, List.all_eq_true] at hg2
    obtain ⟨h1, h2⟩ := hg2
    have hfs : ∀ f ∈ fs, (fileName f.path).isSome = true := by
      intro f hf
      apply h1
      rw [subtreeFiles_mk]
      exact List.mem_append.2 (Or.inl hf)
    have hdirname : ∀ x ∈ ds, (fileName (Dir.path x)).isSome = true := by
      intro x hx
      apply h2
      rw [subtreeDirs_mk]
      exact self_mem_subtreeDirsList ds hx
    rw [Dir.extract, planDir, runOps]
    cases henv : env (FsOp.createDirAll target) with
    | some e => rfl
    | none =>
      rw [extractFiles_eq_runOps env fs target hfs]
      rw [runOps_append]
      rw [hlist ds (fun x hx hgx => ih x hx hgx) (goodNames_child hg) hdirname env target]
      cases hr1 : runOps env (planFiles fs target) with
      | mk ops r =>
        cases r with
        | error e => rfl
        | ok u =>
          cases hr2 : runOps env (planDirs ds target) with
          | mk ops2 r2 => rfl

/-- `runOps` fails only with the I/O error of the first failing call: the
performed calls are exactly the planned ones before it, in order, and the
error is the environment's answer on that call, verbatim. -/
theorem runOps_error (env : FsEnv) :
    ∀ (l ops : List FsOp) (err : ExtractErr),
      runOps env l = (ops, .error err) →
      ∃ e op rest, err = ExtractErr.io e ∧ l = ops ++ op :: rest ∧
        (∀ o ∈ ops, env o = none) ∧ env op = some e := by
  intro l
  induction l with
  | nil => intro ops err h; simp [runOps] at h
  | cons op0 rest ih =>
    intro ops err h
    rw [runOps] at h
    cases henv : env op0 with
    | some e =>
      rw [henv] at h
      simp only [Prod.mk.injEq, Except.error.injEq] at h
      obtain ⟨hops, herr⟩ := h
      subst hops
      refine ⟨e, op0, rest, herr.symm, rfl, ?_, henv⟩
      intro o ho
      cases ho
    | none =>
      rw [henv] at h
      cases hr : runOps env rest with
      | mk ops1 r =>
        rw [hr] at h
        simp only [Prod.mk.injEq] at h
        obtain ⟨hops, herr⟩ := h
        cases r with
        | ok u => cases herr
        | error err1 =>
          have herr1 : err1 = err := by
            cases herr; rfl
          obtain ⟨e, op1, rest1, he, hsplit, hall, hop⟩ := ih ops1 err1 hr
          refine ⟨e, op1, rest1, by rw [← herr1]; exact he, ?_, ?_, hop⟩
          · rw [← hops, hsplit]; rfl
          · intro o ho
            rw [← hops] at ho
            cases List.mem_cons.1 ho with
            | inl hh => rw [hh]; exact henv
            | inr hh => exact hall o hh

/-- `runOps` never produces a panic outcome: it succeeds or reports an I/O
error. -/
theorem runOps_result (env : FsEnv) :
    ∀ l : List FsOp, (runOps env l).2 = .ok () ∨ ∃ e, (runOps env l).2 = .error (.io e) := by
  intro l
  induction l with
  | nil => left; rfl
  | cons op rest ih =>
    rw [runOps]
    cases henv : env op with
    | some e => right; exact ⟨e, rfl⟩
    | none =>
      cases hr : runOps env rest with
      | mk ops r =>
        rw [hr] at ih
        simpa using ih

/-! ## Sample trees and environments used by the witnesses -/

/-- The spec's concrete scenario: `README.md` (content "hello") at the
root, and a subdirectory `src` containing `main.rs`. -/
def sampleRoot : Dir :=
  Dir.mk ""
    [⟨"README.md", [104, 101, 108, 108, 111]⟩]
    [Dir.mk "src" [⟨"src/main.rs", [102, 110]⟩] []]

/-- The round-trip tree: the file `a/b.txt` (content "hi") carried directly
by the extracted directory. -/
def roundTripTree : Dir := Dir.mk "" [⟨"a/b.txt", [104, 105]⟩] []

/-- The environment in which every filesystem call succeeds. -/
def allOk : FsEnv := fun _ => none

/-- The environment in which every file write fails with "disk full". -/
def failWrites : FsEnv := fun op =>
  match op with
  | .writeFile _ _ => some "disk full"
  | _ => none

/-! ## The claims -/

/-- C1: extracting a tree that carries the file `a/b.txt` with content
"hi" succeeds, and the path `target/b.txt` — the file's base name joined
onto the target, the nested prefix `a/` flattened away — then holds the
byte-identical content "hi". -/
theorem C1_extract_roundtrip (target : String) :
    (Dir.extract allOk roundTripTree target).2 = .ok () ∧
    fsAfter (Dir.extract allOk roundTripTree target).1 (joinPath target "b.txt") =
      some [104, 105] := by
  have hb : fileName "a/b.txt" = some "b.txt" := by decide
  have hex : Dir.extract allOk roundTripTree target =
      ([.createDirAll target, .writeFile (joinPath target "b.txt") [104, 105]], .ok ()) := by
    simp [Dir.extract, extractFiles, extractDirs, allOk, roundTripTree, hb]
  rw [hex]
  exact ⟨rfl, by simp [fsAfter]⟩

/-- C2: `find` with `**/*` succeeds and yields exactly the pre-order walk —
every file and every descendant directory, each exactly once (under the
data-model invariant that entry paths are unique), directories before
their own entries, siblings in stored order. -/
theorem C2_find_recursive_preorder (d : Dir)
    (h : ((walk d).map DirEntry.path).Nodup) :
    d.find "**/*" = .ok (walk d) ∧ (walk d).Nodup ∧
    (∀ f : File, DirEntry.file f ∈ walk d ↔ f ∈ subtreeFiles d) ∧
    (∀ s : Dir, DirEntry.dir s ∈ walk d ↔ s ∈ subtreeDirs d) :=
  ⟨find_recursive_eq_walk d, List.Nodup.of_map _ h, mem_walk_file d, mem_walk_dir d⟩

theorem C2_witness :
    (((walk sampleRoot).map DirEntry.path).Nodup) ∧
    sampleRoot.find "**/*" = .ok (walk sampleRoot) := by
  have h : ((walk sampleRoot).map DirEntry.path).Nodup := by decide
  exact ⟨h, (C2_find_recursive_preorder sampleRoot h).1⟩

/-- C3: in a tree with unique paths, looking up the path of any file of the
subtree returns that very file, and looking up the path of any descendant
directory returns that very directory. -/
theorem C3_get_present (d : Dir)
    (hf : ((subtreeFiles d).map File.path).Nodup)
    (hd : ((subtreeDirs d).map Dir.path).Nodup) :
    (∀ f ∈ subtreeFiles d, d.get_file f.path = some f) ∧
    (∀ s ∈ subtreeDirs d, d.get_dir s.path = some s) := by
  constructor
  · intro f hmem
    rw [get_file_eq_find?]
    exact find?_key_of_nodup File.path (subtreeFiles d) hf f hmem
  · intro s hmem
    rw [get_dir_eq_find?]
    exact find?_key_of_nodup Dir.path (subtreeDirs d) hd s hmem

theorem C3_witness :
    ((subtreeFiles sampleRoot).map File.path).Nodup ∧
    ((subtreeDirs sampleRoot).map Dir.path).Nodup ∧
    sampleRoot.get_file "src/main.rs" = some ⟨"src/main.rs", [102, 110]⟩ ∧
    sampleRoot.get_dir "src" = some (Dir.mk "src" [⟨"src/main.rs", [102, 110]⟩] []) := by
  have hf : ((subtreeFiles sampleRoot).map File.path).Nodup := by decide
  have hd : ((subtreeDirs sampleRoot).map Dir.path).Nodup := by decide
  refine ⟨hf, hd, ?_, ?_⟩
  · exact (C3_get_present sampleRoot hf hd).1 ⟨"src/main.rs", [102, 110]⟩ (by decide)
  · exact (C3_get_present sampleRoot hf hd).2
      (Dir.mk "src" [⟨"src/main.rs", [102, 110]⟩] []) (by simp [sampleRoot])

/-- C4: `get_dir` is exactly the first exact path match of the pre-order
descendant enumeration, in which each child directory is checked before its
own subtree and before the next sibling; nothing if absent. -/
theorem C4_get_dir_preorder (d : Dir) (p : String) :
    d.get_dir p = (subtreeDirs d).find? (fun s => s.path == p) :=
  get_dir_eq_find? d p

/-- C5: a path present nowhere in the tree is rejected by all three
lookups: `get_file` and `get_dir` return nothing and `contains` is false
(all three are total functions into `Option`/`Bool` — absence is never an
error value). -/
theorem C5_lookup_absent (d : Dir) (p : String)
    (hf : p ∉ (subtreeFiles d).map File.path)
    (hd : p ∉ (subtreeDirs d).map Dir.path) :
    d.get_file p = none ∧ d.get_dir p = none ∧ d.contains p = false := by
  have h1 : d.get_file p = none := by
    rw [get_file_eq_find?]
    apply List.find?_eq_none.2
    intro f hfm hb
    exact hf (List.mem_map.2 ⟨f, hfm, by simpa [beq_iff_eq] using hb⟩)
  have h2 : d.get_dir p = none := by
    rw [get_dir_eq_find?]
    apply List.find?_eq_none.2
    intro s hsm hb
    exact hd (List.mem_map.2 ⟨s, hsm, by simpa [beq_iff_eq] using hb⟩)
  refine ⟨h1, h2, ?_⟩
  simp [Dir.contains, h1, h2]

theorem C5_witness :
    ("missing.txt" ∉ (subtreeFiles sampleRoot).map File.path) ∧
    ("missing.txt" ∉ (subtreeDirs sampleRoot).map Dir.path) ∧
    sampleRoot.get_file "missing.txt" = none ∧
    sampleRoot.get_dir "missing.txt" = none ∧
    sampleRoot.contains "missing.txt" = false := by
  have hf : "missing.txt" ∉ (subtreeFiles sampleRoot).map File.path := by decide
  have hd : "missing.txt" ∉ (subtreeDirs sampleRoot).map Dir.path := by decide
  obtain ⟨h1, h2, h3⟩ := C5_lookup_absent sampleRoot "missing.txt" hf hd
  exact ⟨hf, hd, h1, h2, h3⟩

/-- C6: `contains` holds exactly when `get_file` or `get_dir` succeeds. -/
theorem C6_contains_iff (d : Dir) (p : String) :
    d.contains p = true ↔ ((d.get_file p).isSome = true ∨ (d.get_dir p).isSome = true) := by
  simp [Dir.contains]

/-- C7: `find` fails exactly when pattern compilation fails; the
`PatternError` is surfaced verbatim and does not depend on the tree (no
traversal is involved), and a valid pattern always yields the filtered
walk. -/
theorem C7_find_pattern_error (d : Dir) (glob : String) :
    ((d.find glob).isOk = (Pattern.new glob).isOk) ∧
    (∀ e, Pattern.new glob = .error e → d.find glob = .error e) ∧
    (∀ pat, Pattern.new glob = .ok pat →
      d.find glob = .ok ((walk d).filter (fun en => pat.matchesPath en.path))) := by
  refine ⟨?_, ?_, ?_⟩
  · rw [Dir.find]
    cases h : Pattern.new glob with
    | error e => rfl
    | ok pat => rfl
  · intro e h
    rw [Dir.find, h]
  · intro pat h
    rw [Dir.find, h]

theorem C7_witness :
    Pattern.new "[abc" = .error ⟨"unbalanced bracket"⟩ ∧
    (Dir.mk "" [] []).find "[abc" = .error ⟨"unbalanced bracket"⟩ := by
  have h : Pattern.new "[abc" = .error ⟨"unbalanced bracket"⟩ := by
    simp [Pattern.new, compileGlob, takeClass, Except.map]
  exact ⟨h, (C7_find_pattern_error (Dir.mk "" [] []) "[abc").2.1 ⟨"unbalanced bracket"⟩ h⟩

/-- C8: under the base-name precondition, a failing extract returns the
I/O error of the first failing filesystem call verbatim; the calls already
performed are exactly the successful planned ones before it, in order, and
stay performed — nothing is rolled back. -/
theorem C8_extract_first_failure (d : Dir) (env : FsEnv) (target : String)
    (hg : goodNames d = true) :
    ∀ ops e, Dir.extract env d target = (ops, .error (.io e)) →
      ∃ op rest, planDir d target = ops ++ op :: rest ∧
        (∀ o ∈ ops, env o = none) ∧ env op = some e := by
  intro ops e hex
  rw [extract_eq_runOps d hg env target] at hex
  obtain ⟨e1, op, rest, he, hsplit, hall, hop⟩ :=
    runOps_error env (planDir d target) ops (.io e) hex
  have he1 : e1 = e := by
    injection he with h0
    exact h0.symm
  subst he1
  exact ⟨op, rest, hsplit, hall, hop⟩

theorem C8_witness :
    goodNames roundTripTree = true ∧
    ∃ op rest, planDir roundTripTree "out" = [FsOp.createDirAll "out"] ++ op :: rest ∧
      (∀ o ∈ [FsOp.createDirAll "out"], failWrites o = none) ∧
      failWrites op = some "disk full" := by
  have hg : goodNames roundTripTree = true := by decide
  have hb : fileName "a/b.txt" = some "b.txt" := by decide
  have hex : Dir.extract failWrites roundTripTree "out" =
      ([FsOp.createDirAll "out"], .error (.io "disk full")) := by
    simp [Dir.extract, extractFiles, extractDirs, failWrites, roundTripTree, hb]
  exact ⟨hg, C8_extract_first_failure roundTripTree failWrites "out" hg
    [FsOp.createDirAll "out"] "disk full" hex⟩

/-- C9: the empty path matches no file of a tree whose files have non-empty
paths, and `get_dir` applied to the root's own path (the empty string)
finds nothing, the traversal starting at the children and never considering
the receiver itself. -/
theorem C9_empty_path (d : Dir)
    (hf : ∀ f ∈ subtreeFiles d, f.path ≠ "")
    (hd : ∀ s ∈ subtreeDirs d, s.path ≠ "")
    (hroot : d.path = "") :
    d.get_file "" = none ∧ d.get_dir d.path = none := by
  rw [hroot]
  constructor
  · rw [get_file_eq_find?]
    apply List.find?_eq_none.2
    intro f hfm hb
    exact hf f hfm (by simpa [beq_iff_eq] using hb)
  · rw [get_dir_eq_find?]
    apply List.find?_eq_none.2
    intro s hsm hb
    exact hd s hsm (by simpa [beq_iff_eq] using hb)

theorem C9_witness :
    (∀ f ∈ subtreeFiles sampleRoot, f.path ≠ "") ∧
    (∀ s ∈ subtreeDirs sampleRoot, s.path ≠ "") ∧
    sampleRoot.get_file "" = none ∧
    sampleRoot.get_dir (Dir.path sampleRoot) = none := by
  have hf : ∀ f ∈ subtreeFiles sampleRoot, f.path ≠ "" := by decide
  have hd : ∀ s ∈ subtreeDirs sampleRoot, s.path ≠ "" := by decide
  obtain ⟨h1, h2⟩ := C9_empty_path sampleRoot hf hd rfl
  exact ⟨hf, hd, h1, h2⟩

/-- C10: when every file of the subtree and every descendant directory has
a base name, neither `expect` in `extract` can fire — the only failure mode
is an I/O error; and a directory holding a file whose path has no final
name component (the empty path) does hit the panic branch. -/
theorem C10_extract_panic_safety :
    (∀ d : Dir, goodNames d = true → ∀ (env : FsEnv) (target : String),
      (Dir.extract env d target).2 = .ok () ∨
        ∃ e, (Dir.extract env d target).2 = .error (.io e)) ∧
    (Dir.extract allOk (Dir.mk "" [⟨"", []⟩] []) "out").2 =
      .error (.panicked "All files are guaranteed to have a filename") := by
  constructor
  · intro d hg env target
    rw [extract_eq_runOps d hg env target]
    exact runOps_result env (planDir d target)
  · have h0 : fileName "" = none := by decide
    simp [Dir.extract, extractFiles, allOk, h0]

theorem C10_witness :
    goodNames sampleRoot = true ∧
    ((Dir.extract allOk sampleRoot "out").2 = .ok () ∨
      ∃ e, (Dir.extract allOk sampleRoot "out").2 = .error (.io e)) := by
  have hg : goodNames sampleRoot = true := by decide
  exact ⟨hg, C10_extract_panic_safety.1 sampleRoot hg allOk "out"⟩

end IncludeDir
